import Mathlib

/-!
Verification development for the File-Backup-System repository.

The Rust sources are shallowly embedded: paths are lists of components,
file contents are byte lists, the `HashMap<PathBuf, FileInfo>` metadata
store is an association list with replace-on-insert semantics, and the
filesystem visible to an operation is passed in explicitly.  Stateful
operations become pure functions returning the updated state, and
fallible operations return `Except`.
-/

namespace FB

/-- A filesystem path, as its list of components. -/
abbrev Path := List String

/-- File contents, as a list of bytes. -/
abbrev Content := List Nat

/-- Model of `calculate_hash`'s SHA-256 hex digest of a byte stream:
a deterministic, never-empty fingerprint of the content.  (The streaming
8 KiB-chunk structure of the Rust code is irrelevant to the digest it
denotes; collisions of the real digest are assumed absent.) -/
def hashHex (c : Content) : String :=
  String.mk ('h' :: c.map (fun b => Char.ofNat (48 + b % 10)))

/-- `FileInfo` from `src/main-project/src/backup.rs`: one tracked file. -/
structure FileInfo where
  original_path : Path
  backup_path : Path
  file_type : String
  hash : String
deriving DecidableEq

/-- Lookup in an association list keyed by path (model of `HashMap::get`). -/
def findKey {α : Type} : List (Path × α) → Path → Option α
  | [], _ => none
  | (k, v) :: rest, p => if k = p then some v else findKey rest p

/-- Insert into an association list keyed by path, replacing the existing
entry for that key if present (model of `HashMap::insert`). -/
def insertKey {α : Type} : List (Path × α) → Path → α → List (Path × α)
  | [], k, v => [(k, v)]
  | (k', v') :: rest, k, v =>
    if k' = k then (k, v) :: rest else (k', v') :: insertKey rest k v

instance {ε α : Type} [DecidableEq ε] [DecidableEq α] : DecidableEq (Except ε α)
  | .error a, .error b =>
    if h : a = b then .isTrue (by rw [h]) else .isFalse (fun hh => h (by injection hh))
  | .error _, .ok _ => .isFalse (fun hh => Except.noConfusion hh)
  | .ok _, .error _ => .isFalse (fun hh => Except.noConfusion hh)
  | .ok a, .ok b =>
    if h : a = b then .isTrue (by rw [h]) else .isFalse (fun hh => h (by injection hh))

/-- The source-side filesystem visible to an operation: for each present
file, `some content` if it can be opened and read, `none` if it exists but
cannot be read (so hashing and copying it fail). -/
structure SrcFS where
  files : List (Path × Option Content)
deriving DecidableEq

/-- Model of `calculate_hash(path)`: `None` when the file is absent or
cannot be read, otherwise the digest of its content. -/
def calculate_hash (fs : SrcFS) (p : Path) : Option String :=
  match findKey fs.files p with
  | some (some c) => some (hashHex c)
  | _ => none

/-- The characters after the last dot of a list, if any dot occurs. -/
def afterLastDot : List Char → Option (List Char)
  | [] => none
  | c :: rest =>
    match afterLastDot rest with
    | some e => some e
    | none => if c = '.' then some rest else none

/-- Model of Rust's `Path::extension()` on a file name: the portion after
the last dot, except that a dot in leading position alone does not count
(hidden files such as `.bashrc` have no extension). -/
def extensionOf (name : String) : Option String :=
  match name.data with
  | [] => none
  | _ :: rest => (afterLastDot rest).map String.mk

/-- `path.extension().map(to_string).unwrap_or("unknown")` from `backup`. -/
def fileTypeOf (p : Path) : String :=
  match p.getLast? with
  | none => "unknown"
  | some name =>
    match extensionOf name with
    | some ext => ext
    | none => "unknown"

/-- The `should_copy` decision of `backup` (`src/main-project/src/backup.rs`):
copy unless an existing record has a non-empty hash equal to the new hash. -/
def should_copy (existing : Option FileInfo) (new_hash : Option String) : Bool :=
  match existing with
  | some old => if old.hash = "" then true else decide (some old.hash ≠ new_hash)
  | none => true

/-- One entry of the `WalkDir` traversal, as the path relative to the
selected source root; a file entry carries `some content` when readable. -/
inductive WalkEntry
  | dir (rel : Path)
  | file (rel : Path) (content : Option Content)
deriving DecidableEq

/-- State threaded through the `backup` walk: the in-memory metadata map
and the source paths whose copy to the backup tree succeeded. -/
structure BState where
  meta : List (Path × FileInfo)
  copied : List Path
deriving DecidableEq

inductive IoError
  | copyFailed (path : Path)
deriving DecidableEq

/-- The record `backup` upserts for a readable file. -/
def mkRecord (srcRoot backupRoot rel : Path) (c : Content) : FileInfo :=
  ⟨srcRoot ++ rel, backupRoot ++ rel, fileTypeOf (srcRoot ++ rel), hashHex c⟩

/-- Per-entry body of the walk loop in `backup`: directories are mirrored;
for a file, decide `should_copy`, attempt `fs::copy` if so (the `?` on
`fs::copy` aborts the walk when the source cannot be read), and upsert a
fresh record whenever the hash was computed. -/
def processEntry (srcRoot backupRoot : Path) (st : BState) :
    WalkEntry → Except IoError BState
  | .dir _ => .ok st
  | .file rel c =>
    if should_copy (findKey st.meta (srcRoot ++ rel)) (c.map hashHex) then
      match c with
      | some cc =>
        .ok { meta := insertKey st.meta (srcRoot ++ rel) (mkRecord srcRoot backupRoot rel cc),
              copied := st.copied ++ [srcRoot ++ rel] }
      | none => .error (.copyFailed (srcRoot ++ rel))
    else
      match c with
      | some cc =>
        .ok { meta := insertKey st.meta (srcRoot ++ rel) (mkRecord srcRoot backupRoot rel cc),
              copied := st.copied }
      | none => .ok st

/-- The walk loop of `backup` over the remaining entries. -/
def backupList (srcRoot backupRoot : Path) (st : BState) :
    List WalkEntry → Except IoError BState
  | [] => .ok st
  | e :: rest =>
    match processEntry srcRoot backupRoot st e with
    | .error err => .error err
    | .ok st' => backupList srcRoot backupRoot st' rest

/-- `backup(selected_folder)`: loads the index (`meta0`), walks the tree,
and persists the final index (persistence itself modelled as succeeding). -/
def backup (srcRoot backupRoot : Path) (entries : List WalkEntry)
    (meta0 : List (Path × FileInfo)) : Except IoError BState :=
  backupList srcRoot backupRoot ⟨meta0, []⟩ entries

/-- The relative paths of the file entries of a walk. -/
def filePathsOf : List WalkEntry → List Path
  | [] => []
  | .dir _ :: rest => filePathsOf rest
  | .file rel _ :: rest => rel :: filePathsOf rest

/-!  `backup_now` (`src/main-project/src/backup.rs:178-232`). -/

/-- State threaded through the `backup_now` pass: the records already
processed (in iteration order), the `backed_up_count` counter, and the
original paths whose copy succeeded during this pass. -/
structure NowState where
  meta : List (Path × FileInfo)
  count : Nat
  copiedPaths : List Path
deriving DecidableEq

inductive NowError
  | lockError
deriving DecidableEq

/-- Body of the `backup_now` loop for one record: skip a record whose
original no longer exists; skip (keeping the record) when hashing fails;
otherwise copy and update the stored hash when the stored hash is empty or
differs from the recomputed one. -/
def processRecord (fs : SrcFS) (st : NowState) (kv : Path × FileInfo) : NowState :=
  if (findKey fs.files kv.2.original_path).isSome then
    match calculate_hash fs kv.2.original_path with
    | some h =>
      if kv.2.hash = "" ∨ h ≠ kv.2.hash then
        { meta := st.meta ++ [(kv.1, { kv.2 with hash := h })],
          count := st.count + 1,
          copiedPaths := st.copiedPaths ++ [kv.2.original_path] }
      else { st with meta := st.meta ++ [kv] }
    | none => { st with meta := st.meta ++ [kv] }
  else { st with meta := st.meta ++ [kv] }

/-- `backup_now(metadata_arc)`: acquire the index lock (surfacing failure
as an error), sweep all records, and persist the document at the end if
and only if at least one file was copied.  The returned `Bool` records
whether `save_to_file` was invoked. -/
def backup_now (lockOk : Bool) (fs : SrcFS) (meta : List (Path × FileInfo)) :
    Except NowError (NowState × Bool) :=
  if lockOk then
    let st := meta.foldl (processRecord fs) ⟨[], 0, []⟩
    .ok (st, decide (0 < st.count))
  else .error .lockError

/-!  `BackupMetadata::load_from_file` (`src/main-project/src/backup.rs:52-78`). -/

/-- The parse outcome of the persisted `backup_metadata.json` document:
the legacy flat list of records, the current keyed mapping, or malformed
text. -/
inductive Document
  | legacyList (l : List FileInfo)
  | keyedMap (m : List (Path × FileInfo))
  | malformed
deriving DecidableEq

/-- The legacy-migration step of `load_from_file`: a record whose stored
hash is empty gets its hash recomputed when that computation succeeds. -/
def migrateRecord (fs : SrcFS) (info : FileInfo) : FileInfo :=
  if info.hash = "" then
    match calculate_hash fs info.original_path with
    | some h => { info with hash := h }
    | none => info
  else info

/-- `load_from_file()`: an absent document yields the empty index; a
legacy flat list is migrated into the keyed mapping (backfilling empty
hashes); a keyed document is taken as is; malformed text falls back to
the empty default. -/
def load_from_file (fs : SrcFS) (doc : Option Document) : List (Path × FileInfo) :=
  match doc with
  | none => []
  | some (.legacyList l) =>
    l.foldl (fun m info =>
      insertKey m (migrateRecord fs info).original_path (migrateRecord fs info)) []
  | some (.keyedMap m) => m
  | some .malformed => []

/-!  `delete_selected` (`src/main-project/src/backup.rs:96-102`). -/

/-- The backup-side filesystem: present files with their contents. -/
structure DestFS where
  files : List (Path × Content)
deriving DecidableEq

/-- Removal of one file (model of `fs::remove_file`). -/
def removeKey {α : Type} (l : List (Path × α)) (p : Path) : List (Path × α) :=
  l.filter (fun kv => decide (¬ kv.1 = p))

/-- `delete_selected(selected_file)`: removes the named backup-side file
when it exists and returns `Ok(())` either way; the persisted index
document is carried through untouched (the function never reads or writes
it). -/
def delete_selected (dest : DestFS) (metaDoc : List (Path × FileInfo)) (p : Path) :
    Except String (DestFS × List (Path × FileInfo)) :=
  if (findKey dest.files p).isSome then .ok (⟨removeKey dest.files p⟩, metaDoc)
  else .ok (dest, metaDoc)

/-!  `DaemonManager` (`src/main-project/src/daemon.rs`). -/

/-- The process-level state the daemon manager observes: the PID file's
contents (if the file exists) and the set of live process ids. -/
structure ProcState where
  pidFile : Option String
  alive : List Int
deriving DecidableEq

/-- ASCII whitespace, as `str::trim` sees it. -/
def isWs (c : Char) : Bool :=
  c = ' ' ∨ c = '\n' ∨ c = '\t' ∨ c = '\r'

/-- Trim whitespace from both ends of a character list. -/
def trimChars (l : List Char) : List Char :=
  ((l.dropWhile isWs).reverse.dropWhile isWs).reverse

/-- Parse an unsigned decimal number (model of the digits phase of
`str::parse`); fails on an empty or non-digit input. -/
def parseNatChars (l : List Char) : Option Nat :=
  if l = [] then none
  else
    l.foldl
      (fun acc c =>
        match acc with
        | none => none
        | some n => if c.isDigit then some (n * 10 + (c.toNat - 48)) else none)
      (some 0)

/-- Model of `contents.trim().parse::<i32>()`. -/
def parsePid (s : String) : Option Int :=
  match trimChars s.data with
  | '-' :: rest => (parseNatChars rest).map (fun n => -(n : Int))
  | '+' :: rest => (parseNatChars rest).map (fun n => (n : Int))
  | l => (parseNatChars l).map (fun n => (n : Int))

/-- `get_pid()`: read the PID file and parse its trimmed contents. -/
def get_pid (st : ProcState) : Option Int :=
  match st.pidFile with
  | none => none
  | some s => parsePid s

/-- `DaemonManager::is_running` (main variant): probe the recorded pid
with `kill(pid, None)`; on a dead process delete the stale PID file and
report not running. -/
def is_running (st : ProcState) : Bool × ProcState :=
  match get_pid st with
  | some pid =>
    if pid ∈ st.alive then (true, st) else (false, { st with pidFile := none })
  | none => (false, st)

/-- Modelled from the spec: `BackupSettings` is referenced from
`daemon.rs` and the GUI layer but its definition is not under `src/`;
per the spec it holds `auto_backup_enabled` (default: disabled) and
`interval_minutes`. -/
structure BackupSettings where
  auto_backup_enabled : Bool
  interval_minutes : Nat
deriving DecidableEq

inductive StartOutcome
  | errAlreadyRunning
  | errAutoBackupDisabled
  | errLoadFailed
  | errNoFiles
  | launched
deriving DecidableEq

/-- `DaemonManager::start`: refuse when already running; otherwise purge
any stale PID file, then refuse when auto-backup is disabled in the
loaded settings, when the index fails to load, or when it is empty;
only then daemonize (`launched`). -/
def start (st : ProcState) (settings : BackupSettings)
    (metaResult : Except String (List (Path × FileInfo))) : StartOutcome × ProcState :=
  match is_running st with
  | (true, st1) => (.errAlreadyRunning, st1)
  | (false, st1) =>
    if settings.auto_backup_enabled then
      match metaResult with
      | .error _ => (.errLoadFailed, { st1 with pidFile := none })
      | .ok meta =>
        if meta = [] then (.errNoFiles, { st1 with pidFile := none })
        else (.launched, { st1 with pidFile := none })
    else (.errAutoBackupDisabled, { st1 with pidFile := none })

/-!  The `src/test/src` variant of the crate. -/

namespace TestV

/-- `FileInfo` from `src/test/src/backup.rs`: note there is no content
hash; scheduling fields replace it. -/
structure FileInfo where
  original_path : FB.Path
  backup_path : FB.Path
  file_type : String
  auto_backup : Bool
  backup_time : Nat
  backup_frequency : String
deriving DecidableEq

/-- `convert_time(info, frequency)` from `src/test/src/backup.rs`. -/
def convert_time (info : FileInfo) (frequency : String) : Option Nat :=
  if frequency = "Day(s)" then some (info.backup_time * 60 * 60 * 24)
  else if frequency = "Hour(s)" then some (info.backup_time * 60 * 60)
  else if frequency = "Minute(s)" then some (info.backup_time * 60)
  else none

/-- One iteration of the per-file loop spawned by `auto_backup`
(`src/test/src/backup.rs:274-302`), after its sleep: `fs::copy` the
source to the backup path unconditionally — there is no hash check; a
failed copy is logged and the loop simply continues.  Returns the updated
backup-side tree and whether a copy was performed. -/
def autoLoopIteration (src : SrcFS) (dest : DestFS) (info : FileInfo) :
    DestFS × Bool :=
  match findKey src.files info.original_path with
  | some (some c) => (⟨insertKey dest.files info.backup_path c⟩, true)
  | _ => (dest, false)

/-- `DaemonManager::is_running` (test variant,
`src/test/src/daemon.rs:45-51`): probes liveness but never deletes a
stale PID file; the state is returned unchanged. -/
def is_running (st : ProcState) : Bool × ProcState :=
  match get_pid st with
  | some pid => (decide (pid ∈ st.alive), st)
  | none => (false, st)

/-- The process-wide scheduler bookkeeping of `auto_backup`: the
`RUNNING_BACKUPS` set of paths with an active re-check loop, and (as an
observation) every path for which a loop thread was ever spawned, in
spawn order. -/
structure SweepState where
  running : List FB.Path
  started : List FB.Path
deriving DecidableEq

/-- Body of the `auto_backup` sweep loop for one enabled record: skip it
when its path is already in `RUNNING_BACKUPS`, otherwise mark the path as
running and spawn its re-check loop. -/
def sweepStep (st : SweepState) (info : FileInfo) : SweepState :=
  if info.original_path ∈ st.running then st
  else { running := info.original_path :: st.running,
         started := st.started ++ [info.original_path] }

/-- `auto_backup()` (`src/test/src/backup.rs:228-306`): when the metadata
document is absent it returns an error (the daemon logs it and the sweep
state is untouched); otherwise it filters the loaded records to those with
`auto_backup` enabled and runs the sweep loop over them under the
`RUNNING_BACKUPS` lock. -/
def auto_backup (st : SweepState) (doc : Option (List FileInfo)) : SweepState :=
  match doc with
  | none => st
  | some l => (l.filter (fun i => i.auto_backup)).foldl sweepStep st

/-- A whole process run: any sequence of sweep invocations starting from
the empty `RUNNING_BACKUPS` set. -/
def runSweeps (docs : List (Option (List FileInfo))) : SweepState :=
  docs.foldl auto_backup ⟨[], []⟩

end TestV

/-!  Helper lemmas about the embedded operations. -/

theorem hashHex_ne_empty (c : Content) : hashHex c ≠ "" := by
  intro h
  have hlen := congrArg String.length h
  simp [hashHex, String.length] at hlen

theorem findKey_insertKey_eq {α : Type} (m : List (Path × α)) (k : Path) (v : α) :
    findKey (insertKey m k v) k = some v := by
  induction m with
  | nil => simp [insertKey, findKey]
  | cons hd tl ih =>
    obtain ⟨k', v'⟩ := hd
    by_cases h : k' = k
    · simp [insertKey, findKey, h]
    · simp [insertKey, findKey, h, ih]

theorem findKey_insertKey_ne {α : Type} (m : List (Path × α)) (k p : Path) (v : α)
    (h : p ≠ k) : findKey (insertKey m k v) p = findKey m p := by
  have hks : k ≠ p := Ne.symm h
  induction m with
  | nil => simp [insertKey, findKey, hks]
  | cons hd tl ih =>
    obtain ⟨k', v'⟩ := hd
    by_cases hk : k' = k
    · subst hk
      simp [insertKey, findKey, hks]
    · simp [insertKey, findKey, hk, ih]

theorem insertKey_self {α : Type} (m : List (Path × α)) (k : Path) (v : α)
    (h : findKey m k = some v) : insertKey m k v = m := by
  induction m with
  | nil => simp [findKey] at h
  | cons hd tl ih =>
    obtain ⟨k', v'⟩ := hd
    by_cases hk : k' = k
    · subst hk
      simp [findKey] at h
      simp [insertKey, h]
    · simp [findKey, hk] at h
      simp [insertKey, hk, ih h]

theorem should_copy_none_hash (existing : Option FileInfo) :
    should_copy existing none = true := by
  cases existing with
  | none => rfl
  | some old =>
    by_cases h : old.hash = "" <;> simp [should_copy, h]

theorem should_copy_some_iff (existing : Option FileInfo) (h : String) :
    should_copy existing (some h) = true ↔
      (existing = none ∨
       ∃ old, existing = some old ∧ (old.hash = "" ∨ old.hash ≠ h)) := by
  cases existing with
  | none => simp [should_copy]
  | some old =>
    by_cases he : old.hash = "" <;> simp [should_copy, he]

/-!  Claim C1. -/

/-- Claim C1: in the walk of `backup(source_root)`, a regular file whose
hash was computed is copied to its destination exactly when there is no
existing record for its path, or the existing record's hash is empty, or
the new hash differs from the stored one; and a file whose hash could not
be computed still triggers the copy (which then fails on the same
unreadable source, surfacing the I/O error). -/
theorem backup_copy_decision (srcRoot backupRoot : Path) (st : BState) (rel : Path) :
    (∀ (cc : Content) (st' : BState),
      processEntry srcRoot backupRoot st (.file rel (some cc)) = .ok st' →
        (st'.copied = st.copied ++ [srcRoot ++ rel] ↔
          (findKey st.meta (srcRoot ++ rel) = none ∨
           ∃ old, findKey st.meta (srcRoot ++ rel) = some old ∧
             (old.hash = "" ∨ old.hash ≠ hashHex cc)))) ∧
    processEntry srcRoot backupRoot st (.file rel none) =
      .error (.copyFailed (srcRoot ++ rel)) := by
  constructor
  · intro cc st' hok
    by_cases hsc : should_copy (findKey st.meta (srcRoot ++ rel)) (some (hashHex cc)) = true
    · simp only [processEntry, Option.map_some', hsc, if_true] at hok
      simp only [Except.ok.injEq] at hok
      subst hok
      simp only [true_iff]
      exact (should_copy_some_iff _ _).mp hsc
    · rw [processEntry] at hok
      simp only [Option.map_some'] at hok
      rw [if_neg hsc] at hok
      simp only [Except.ok.injEq] at hok
      subst hok
      constructor
      · intro habs
        have := congrArg List.length habs
        simp at this
      · intro hcond
        exact absurd ((should_copy_some_iff _ _).mpr hcond) hsc
  · rw [processEntry]
    simp [should_copy_none_hash]

theorem backup_copy_decision_witness :
    (BState.mk [(["s", "a"], ⟨["s", "a"], ["b", "a"], "unknown", "h1"⟩)]
      [["s", "a"]]).copied = ([] : List Path) ++ [["s"] ++ ["a"]] :=
  ((backup_copy_decision ["s"] ["b"] ⟨[], []⟩ ["a"]).1 [1]
    ⟨[(["s", "a"], ⟨["s", "a"], ["b", "a"], "unknown", "h1"⟩)], [["s", "a"]]⟩
    (by decide)).mpr (Or.inl (by decide))

/-!  Claim C2. -/

/-- Claim C2 counterexample: the backup-side copy already holds content
identical to the source (so the recomputed hash would equal the stored
one), yet one iteration of the per-file auto-backup loop still performs a
copy — the loop body of `auto_backup` in `src/test/src/backup.rs` never
hashes at all. -/
theorem auto_loop_counterexample :
    findKey (DestFS.mk [(["b"], [1])]).files ["b"] = some [1] ∧
    findKey (SrcFS.mk [(["o"], some [1])]).files ["o"] = some (some [1]) ∧
    (TestV.autoLoopIteration ⟨[(["o"], some [1])]⟩ ⟨[(["b"], [1])]⟩
      ⟨["o"], ["b"], "txt", true, 5, "Minute(s)"⟩).2 = true := by
  refine ⟨rfl, rfl, rfl⟩

/-- Claim C2 amended: each iteration of the per-file loop started by
`auto_backup()` copies the file to its backup path unconditionally
whenever the source can be read — there is no hashing and no change
detection, so unchanged content is re-copied; when the copy fails the
destination is untouched and the loop continues. -/
theorem auto_loop_unconditional (src : SrcFS) (dest : DestFS) (info : TestV.FileInfo) :
    ((TestV.autoLoopIteration src dest info).2 = true ↔
      ∃ c, findKey src.files info.original_path = some (some c)) ∧
    (∀ c : Content, findKey src.files info.original_path = some (some c) →
      TestV.autoLoopIteration src dest info =
        (⟨insertKey dest.files info.backup_path c⟩, true)) ∧
    (findKey src.files info.original_path = none →
      TestV.autoLoopIteration src dest info = (dest, false)) ∧
    (findKey src.files info.original_path = some none →
      TestV.autoLoopIteration src dest info = (dest, false)) := by
  refine ⟨?_, ?_, ?_, ?_⟩
  · cases hf : findKey src.files info.original_path with
    | none => simp [TestV.autoLoopIteration, hf]
    | some oc =>
      cases oc with
      | none => simp [TestV.autoLoopIteration, hf]
      | some c => simp [TestV.autoLoopIteration, hf]
  · intro c h
    simp [TestV.autoLoopIteration, h]
  · intro h
    simp [TestV.autoLoopIteration, h]
  · intro h
    simp [TestV.autoLoopIteration, h]

theorem auto_loop_unconditional_witness :
    TestV.autoLoopIteration ⟨[(["o"], some [1])]⟩ ⟨[(["b"], [1])]⟩
      ⟨["o"], ["b"], "txt", true, 5, "Minute(s)"⟩ = (⟨[(["b"], [1])]⟩, true) :=
  (auto_loop_unconditional ⟨[(["o"], some [1])]⟩ ⟨[(["b"], [1])]⟩
    ⟨["o"], ["b"], "txt", true, 5, "Minute(s)"⟩).2.1 [1] (by decide)

/-!  Claim C5. -/

theorem processRecord_hash_failed (fs : SrcFS) (st : NowState) (kv : Path × FileInfo)
    (h : findKey fs.files kv.2.original_path = some none) :
    processRecord fs st kv = { st with meta := st.meta ++ [kv] } := by
  simp [processRecord, calculate_hash, h]

/-- Claim C5 counterexample: a tracked file exists but cannot be read, so
its hash computation fails; `backup_now` does not copy it (count `0`, no
copied path, no save), contradicting the claim that both batch operations
treat a hash failure as "changed" and still copy the file. -/
theorem hash_failure_counterexample :
    backup_now true ⟨[(["f"], none)]⟩ [(["f"], ⟨["f"], ["bk", "f"], "txt", "oldhash"⟩)] =
      .ok (⟨[(["f"], ⟨["f"], ["bk", "f"], "txt", "oldhash"⟩)], 0, []⟩, false) := by
  decide

/-- Claim C5 amended: only the initial sync `backup()` treats an absent
hash as changed — `should_copy` is true whenever the new hash is `None`
and the copy is attempted, but when that copy itself fails the walk
aborts with the error instead of continuing; `backup_now()` instead skips
a record whose hash cannot be computed (no copy, record kept unchanged)
and continues with the remaining records. -/
theorem hash_failure_behavior :
    (∀ existing : Option FileInfo, should_copy existing none = true) ∧
    (∀ (srcRoot backupRoot : Path) (st : BState) (rel : Path),
      processEntry srcRoot backupRoot st (.file rel none) =
        .error (.copyFailed (srcRoot ++ rel))) ∧
    (∀ (fs : SrcFS) (st : NowState) (kv : Path × FileInfo),
      findKey fs.files kv.2.original_path = some none →
        processRecord fs st kv = { st with meta := st.meta ++ [kv] }) ∧
    (∀ (fs : SrcFS) (st : NowState) (kv : Path × FileInfo)
       (rest : List (Path × FileInfo)),
      findKey fs.files kv.2.original_path = some none →
        (kv :: rest).foldl (processRecord fs) st =
          rest.foldl (processRecord fs) { st with meta := st.meta ++ [kv] }) := by
  refine ⟨should_copy_none_hash, ?_, processRecord_hash_failed, ?_⟩
  · intro srcRoot backupRoot st rel
    rw [processEntry]
    simp [should_copy_none_hash]
  · intro fs st kv rest h
    rw [List.foldl_cons, processRecord_hash_failed fs st kv h]

theorem hash_failure_behavior_witness :
    processRecord ⟨[(["f"], none)]⟩ ⟨[], 0, []⟩ (["f"], ⟨["f"], ["b"], "t", "x"⟩) =
      ⟨[(["f"], ⟨["f"], ["b"], "t", "x"⟩)], 0, []⟩ :=
  hash_failure_behavior.2.2.1 ⟨[(["f"], none)]⟩ ⟨[], 0, []⟩
    (["f"], ⟨["f"], ["b"], "t", "x"⟩) (by decide)

/-!  Claim C7. -/

/-- Claim C7 counterexample: in the test variant of
`DaemonManager::is_running` (`src/test/src/daemon.rs:45-51`), a PID file
naming a dead process yields `false` but the stale PID file is *not*
deleted, contradicting the claimed self-healing side effect. -/
theorem is_running_stale_counterexample :
    TestV.is_running ⟨some "999", []⟩ = (false, ⟨some "999", []⟩) ∧
    (TestV.is_running ⟨some "999", []⟩).2.pidFile = some "999" := by
  constructor
  · decide
  · decide

/-- Claim C7 amended: the main variant of `is_running()` returns false
and deletes the PID file when the recorded process is not alive, and
returns false when no PID file exists; the test variant also returns
false on a stale record but leaves the PID file in place (its `start()`
purges it instead). -/
theorem is_running_stale (st : ProcState) :
    (∀ pid : Int, get_pid st = some pid → pid ∉ st.alive →
      is_running st = (false, { st with pidFile := none })) ∧
    (st.pidFile = none → is_running st = (false, st)) ∧
    (∀ pid : Int, get_pid st = some pid → pid ∉ st.alive →
      TestV.is_running st = (false, st)) := by
  refine ⟨?_, ?_, ?_⟩
  · intro pid hp hna
    simp [is_running, hp, hna]
  · intro h
    simp [is_running, get_pid, h]
  · intro pid hp hna
    simp [TestV.is_running, hp, hna]

theorem is_running_stale_witness :
    is_running ⟨some "999", []⟩ = (false, ⟨none, []⟩) :=
  (is_running_stale ⟨some "999", []⟩).1 999 (by decide) (by decide)

/-!  Claim C8. -/

/-- Claim C8: `start()` errors (and does not daemonize) when the daemon
is already running, when auto-backup is disabled in the loaded settings,
or when the loaded index is empty; and whenever it does reach the
daemonize step, none of those holds and the stale PID file has been
purged. -/
theorem daemon_start_preconditions :
    (∀ (st : ProcState) (s : BackupSettings)
       (mr : Except String (List (Path × FileInfo))),
      (is_running st).1 = true →
        start st s mr = (.errAlreadyRunning, (is_running st).2)) ∧
    (∀ (st : ProcState) (s : BackupSettings)
       (mr : Except String (List (Path × FileInfo))),
      (is_running st).1 = false → s.auto_backup_enabled = false →
        start st s mr = (.errAutoBackupDisabled, { (is_running st).2 with pidFile := none })) ∧
    (∀ (st : ProcState) (s : BackupSettings),
      (is_running st).1 = false → s.auto_backup_enabled = true →
        start st s (.ok []) = (.errNoFiles, { (is_running st).2 with pidFile := none })) ∧
    (∀ (st : ProcState) (s : BackupSettings)
       (mr : Except String (List (Path × FileInfo))),
      (start st s mr).1 = .launched →
        (is_running st).1 = false ∧ s.auto_backup_enabled = true ∧
        (∃ m, mr = .ok m ∧ m ≠ []) ∧ (start st s mr).2.pidFile = none) := by
  refine ⟨?_, ?_, ?_, ?_⟩
  · intro st s mr h
    rcases hir : is_running st with ⟨b, st1⟩
    rw [hir] at h
    simp only at h
    subst h
    simp [start, hir]
  · intro st s mr h hs
    rcases hir : is_running st with ⟨b, st1⟩
    rw [hir] at h
    simp only at h
    subst h
    simp [start, hir, hs]
  · intro st s h hs
    rcases hir : is_running st with ⟨b, st1⟩
    rw [hir] at h
    simp only at h
    subst h
    simp [start, hir, hs]
  · intro st s mr h
    rcases hir : is_running st with ⟨b, st1⟩
    cases b with
    | true => simp [start, hir] at h
    | false =>
      cases hs : s.auto_backup_enabled with
      | false => simp [start, hir, hs] at h
      | true =>
        cases mr with
        | error e => simp [start, hir, hs] at h
        | ok m =>
          by_cases hm : m = []
          · simp [start, hir, hs, hm] at h
          · exact ⟨by simp [hir], rfl, ⟨m, rfl, hm⟩, by simp [start, hir, hs, hm]⟩

theorem daemon_start_preconditions_witness :
    start ⟨some "7", [7]⟩ ⟨true, 5⟩ (.ok []) = (.errAlreadyRunning, ⟨some "7", [7]⟩) :=
  daemon_start_preconditions.1 ⟨some "7", [7]⟩ ⟨true, 5⟩ (.ok []) (by decide)

/-!  Claim C9. -/

theorem sweepStep_inv (st : TestV.SweepState) (info : TestV.FileInfo)
    (h1 : st.started.Nodup) (h2 : st.started ⊆ st.running) :
    (TestV.sweepStep st info).started.Nodup ∧
      (TestV.sweepStep st info).started ⊆ (TestV.sweepStep st info).running := by
  unfold TestV.sweepStep
  by_cases hm : info.original_path ∈ st.running
  · simp only [hm, if_true]
    exact ⟨h1, h2⟩
  · simp only [hm, if_false]
    refine ⟨?_, ?_⟩
    · have hp : info.original_path ∉ st.started := fun hc => hm (h2 hc)
      rw [List.nodup_append]
      refine ⟨h1, List.nodup_singleton _, ?_⟩
      intro a ha hb
      simp only [List.mem_singleton] at hb
      subst hb
      exact hp ha
    · intro x hx
      rcases List.mem_append.mp hx with hx | hx
      · exact List.mem_cons_of_mem _ (h2 hx)
      · simp only [List.mem_singleton] at hx
        subst hx
        exact List.mem_cons_self _ _

theorem foldlSweep_inv (l : List TestV.FileInfo) :
    ∀ st : TestV.SweepState, st.started.Nodup → st.started ⊆ st.running →
      (l.foldl TestV.sweepStep st).started.Nodup ∧
        (l.foldl TestV.sweepStep st).started ⊆ (l.foldl TestV.sweepStep st).running := by
  induction l with
  | nil => intro st h1 h2; exact ⟨h1, h2⟩
  | cons i rest ih =>
    intro st h1 h2
    have h := sweepStep_inv st i h1 h2
    exact ih _ h.1 h.2

theorem sweepsFold_inv (docs : List (Option (List TestV.FileInfo))) :
    ∀ st : TestV.SweepState, st.started.Nodup → st.started ⊆ st.running →
      (docs.foldl TestV.auto_backup st).started.Nodup ∧
        (docs.foldl TestV.auto_backup st).started ⊆
          (docs.foldl TestV.auto_backup st).running := by
  induction docs with
  | nil => intro st h1 h2; exact ⟨h1, h2⟩
  | cons d rest ih =>
    intro st h1 h2
    cases d with
    | none => exact ih st h1 h2
    | some l =>
      have h := foldlSweep_inv (l.filter (fun i => i.auto_backup)) st h1 h2
      exact ih _ h.1 h.2

/-- Claim C9: across any sequence of `auto_backup()` sweeps in one
process, each `original_path` has at most one re-check loop ever spawned
(the spawn log is duplicate-free), and every spawned path is recorded in
the process-wide `RUNNING_BACKUPS` set. -/
theorem auto_backup_single_loop (docs : List (Option (List TestV.FileInfo))) :
    (TestV.runSweeps docs).started.Nodup ∧
      (TestV.runSweeps docs).started ⊆ (TestV.runSweeps docs).running :=
  sweepsFold_inv docs ⟨[], []⟩ List.nodup_nil (List.nil_subset _)

/-!  Claim C10. -/

theorem findKey_removeKey_ne {α : Type} (l : List (Path × α)) (p q : Path)
    (h : q ≠ p) : findKey (removeKey l p) q = findKey l q := by
  induction l with
  | nil => rfl
  | cons hd tl ih =>
    obtain ⟨k, v⟩ := hd
    by_cases hk : k = p
    · subst hk
      simp [removeKey, List.filter_cons, findKey, Ne.symm h] at ih ⊢
      exact ih
    · by_cases hq : k = q
      · subst hq
        simp [removeKey, List.filter_cons, hk, findKey]
      · simp [removeKey, List.filter_cons, hk, findKey, hq] at ih ⊢
        exact ih

/-- Claim C10: `delete_selected(path)` on a non-existent path returns
`Ok` and changes nothing; in every case it leaves the persisted index
untouched and removes at most the one named backup-side file. -/
theorem delete_selected_safe :
    (∀ (dest : DestFS) (metaDoc : List (Path × FileInfo)) (p : Path),
      findKey dest.files p = none →
        delete_selected dest metaDoc p = .ok (dest, metaDoc)) ∧
    (∀ (dest : DestFS) (metaDoc : List (Path × FileInfo)) (p : Path)
       (dest' : DestFS) (metaDoc' : List (Path × FileInfo)),
      delete_selected dest metaDoc p = .ok (dest', metaDoc') → metaDoc' = metaDoc) ∧
    (∀ (dest : DestFS) (metaDoc : List (Path × FileInfo)) (p : Path)
       (dest' : DestFS) (metaDoc' : List (Path × FileInfo)) (q : Path),
      delete_selected dest metaDoc p = .ok (dest', metaDoc') → q ≠ p →
        findKey dest'.files q = findKey dest.files q) := by
  refine ⟨?_, ?_, ?_⟩
  · intro dest metaDoc p h
    simp [delete_selected, h]
  · intro dest metaDoc p dest' metaDoc' h
    unfold delete_selected at h
    cases hs : (findKey dest.files p).isSome with
    | true =>
      simp [hs] at h
      exact h.2.symm
    | false =>
      simp [hs] at h
      exact h.2.symm
  · intro dest metaDoc p dest' metaDoc' q h hq
    unfold delete_selected at h
    cases hs : (findKey dest.files p).isSome with
    | true =>
      simp [hs] at h
      rw [← h.1]
      exact findKey_removeKey_ne dest.files p q hq
    | false =>
      simp [hs] at h
      rw [← h.1]

theorem delete_selected_safe_witness :
    delete_selected ⟨[(["keep"], [1])]⟩ [] ["gone"] = .ok (⟨[(["keep"], [1])]⟩, []) :=
  delete_selected_safe.1 ⟨[(["keep"], [1])]⟩ [] ["gone"] (by decide)

/-!  Claim C6. -/

theorem migrateRecord_path (fs : SrcFS) (info : FileInfo) :
    (migrateRecord fs info).original_path = info.original_path := by
  unfold migrateRecord
  by_cases h : info.hash = ""
  · simp only [h, if_true]
    cases hc : calculate_hash fs info.original_path <;> simp
  · simp [h]

theorem findKey_migrateFold_frame (fs : SrcFS) :
    ∀ (l : List FileInfo) (m : List (Path × FileInfo)) (p : Path),
      (∀ i ∈ l, i.original_path ≠ p) →
      findKey (l.foldl (fun m info =>
        insertKey m (migrateRecord fs info).original_path (migrateRecord fs info)) m) p
        = findKey m p := by
  intro l
  induction l with
  | nil =>
    intro m p _
    rfl
  | cons i rest ih =>
    intro m p h
    rw [List.foldl_cons]
    rw [ih _ p (fun j hj => h j (List.mem_cons_of_mem _ hj))]
    apply findKey_insertKey_ne
    rw [migrateRecord_path]
    exact Ne.symm (h i (List.mem_cons_self _ _))

theorem findKey_migrateFold (fs : SrcFS) :
    ∀ (l : List FileInfo) (m : List (Path × FileInfo)) (p : Path),
      (l.map (fun i => i.original_path)).Nodup →
      findKey (l.foldl (fun m info =>
        insertKey m (migrateRecord fs info).original_path (migrateRecord fs info)) m) p =
        match l.find? (fun i => decide (i.original_path = p)) with
        | some info => some (migrateRecord fs info)
        | none => findKey m p := by
  intro l
  induction l with
  | nil =>
    intro m p _
    rfl
  | cons i rest ih =>
    intro m p hnd
    rw [List.map_cons, List.nodup_cons] at hnd
    obtain ⟨hni, hnd'⟩ := hnd
    rw [List.foldl_cons]
    by_cases hp : i.original_path = p
    · have hfind : (i :: rest).find? (fun j => decide (j.original_path = p)) = some i :=
        List.find?_cons_of_pos _ (by simp [hp])
      rw [hfind]
      rw [findKey_migrateFold_frame fs rest _ p ?notrest]
      case notrest =>
        intro j hj hjp
        exact hni (List.mem_map.mpr ⟨j, hj, hjp.trans hp.symm⟩)
      rw [migrateRecord_path, hp]
      exact findKey_insertKey_eq _ _ _
    · have hfind : (i :: rest).find? (fun j => decide (j.original_path = p)) =
          rest.find? (fun j => decide (j.original_path = p)) :=
        List.find?_cons_of_neg _ (by simp [hp])
      rw [hfind]
      rw [ih _ p hnd']
      cases hf : rest.find? (fun j => decide (j.original_path = p)) with
      | some j => rfl
      | none =>
        apply findKey_insertKey_ne
        rw [migrateRecord_path]
        exact fun hh => hp hh.symm

/-- Claim C6: `load_from_file()` returns the empty index (not an error)
when no persisted document exists; and a legacy flat-list document is
migrated into the keyed mapping indexed by `original_path`, where a
record whose stored hash was empty gets its hash recomputed from the
file's current content exactly when that computation succeeds. -/
theorem load_absent_and_legacy (fs : SrcFS) :
    load_from_file fs none = [] ∧
    (∀ (l : List FileInfo) (p : Path),
      (l.map (fun i => i.original_path)).Nodup →
      findKey (load_from_file fs (some (.legacyList l))) p =
        match l.find? (fun i => decide (i.original_path = p)) with
        | some info =>
          some (if info.hash = "" then
                  match calculate_hash fs info.original_path with
                  | some h => { info with hash := h }
                  | none => info
                else info)
        | none => none) := by
  refine ⟨rfl, ?_⟩
  intro l p hnd
  have h := findKey_migrateFold fs l [] p hnd
  refine Eq.trans h ?_
  cases hf : l.find? (fun i => decide (i.original_path = p)) with
  | none => rfl
  | some info => rfl

theorem load_absent_and_legacy_witness :
    findKey (load_from_file ⟨[(["f"], some [2])]⟩
      (some (Document.legacyList [⟨["f"], ["b"], "t", ""⟩]))) ["f"] =
      some ⟨["f"], ["b"], "t", "h2"⟩ := by
  have h := (load_absent_and_legacy ⟨[(["f"], some [2])]⟩).2
    [⟨["f"], ["b"], "t", ""⟩] ["f"] (by decide)
  rw [h]
  decide

/-!  Claim C3. -/

theorem processEntry_dir (srcRoot backupRoot : Path) (st : BState) (d : Path) :
    processEntry srcRoot backupRoot st (.dir d) = .ok st := rfl

theorem processEntry_file_none (srcRoot backupRoot : Path) (st : BState) (rel : Path) :
    processEntry srcRoot backupRoot st (.file rel none) =
      .error (.copyFailed (srcRoot ++ rel)) := by
  rw [processEntry]
  simp [should_copy_none_hash]

theorem processEntry_file_ok_readable (srcRoot backupRoot : Path) (st : BState)
    (rel : Path) (c : Option Content) (st' : BState)
    (h : processEntry srcRoot backupRoot st (.file rel c) = .ok st') :
    ∃ cc, c = some cc := by
  cases c with
  | some cc => exact ⟨cc, rfl⟩
  | none =>
    rw [processEntry_file_none] at h
    simp at h

theorem processEntry_file_some_ok (srcRoot backupRoot : Path) (st : BState)
    (rel : Path) (cc : Content) (st' : BState)
    (h : processEntry srcRoot backupRoot st (.file rel (some cc)) = .ok st') :
    st'.meta = insertKey st.meta (srcRoot ++ rel) (mkRecord srcRoot backupRoot rel cc) := by
  rw [processEntry] at h
  simp only [Option.map_some'] at h
  by_cases hsc : should_copy (findKey st.meta (srcRoot ++ rel)) (some (hashHex cc)) = true
  · rw [if_pos hsc] at h
    simp only [Except.ok.injEq] at h
    rw [← h]
  · rw [if_neg hsc] at h
    simp only [Except.ok.injEq] at h
    rw [← h]

theorem backupList_cons (srcRoot backupRoot : Path) (st : BState)
    (e : WalkEntry) (rest : List WalkEntry) :
    backupList srcRoot backupRoot st (e :: rest) =
      match processEntry srcRoot backupRoot st e with
      | .error err => .error err
      | .ok st' => backupList srcRoot backupRoot st' rest := rfl

theorem filePaths_sub (e : WalkEntry) (rest : List WalkEntry) (rel : Path)
    (h : rel ∈ filePathsOf rest) : rel ∈ filePathsOf (e :: rest) := by
  cases e with
  | dir d => simpa [filePathsOf] using h
  | file relh ch =>
    simp only [filePathsOf, List.mem_cons]
    exact Or.inr h

theorem processEntry_frame (srcRoot backupRoot : Path) (st : BState) (e : WalkEntry)
    (st' : BState) (h : processEntry srcRoot backupRoot st e = .ok st') (p : Path)
    (hp : ∀ rel c, e = WalkEntry.file rel c → srcRoot ++ rel ≠ p) :
    findKey st'.meta p = findKey st.meta p := by
  cases e with
  | dir d =>
    rw [processEntry_dir] at h
    simp only [Except.ok.injEq] at h
    rw [← h]
  | file rel c =>
    obtain ⟨cc, rfl⟩ := processEntry_file_ok_readable _ _ _ _ _ _ h
    rw [processEntry_file_some_ok _ _ _ _ _ _ h]
    exact findKey_insertKey_ne _ _ _ _ (Ne.symm (hp rel (some cc) rfl))

theorem backupList_frame (srcRoot backupRoot : Path) :
    ∀ (es : List WalkEntry) (st st1 : BState),
      backupList srcRoot backupRoot st es = .ok st1 →
      ∀ p : Path, (∀ rel ∈ filePathsOf es, srcRoot ++ rel ≠ p) →
        findKey st1.meta p = findKey st.meta p := by
  intro es
  induction es with
  | nil =>
    intro st st1 h p _
    simp only [backupList, Except.ok.injEq] at h
    rw [← h]
  | cons e rest ih =>
    intro st st1 h p hp
    rw [backupList_cons] at h
    cases hpe : processEntry srcRoot backupRoot st e with
    | error err =>
      rw [hpe] at h
      simp at h
    | ok st' =>
      rw [hpe] at h
      have h1 : findKey st'.meta p = findKey st.meta p := by
        apply processEntry_frame srcRoot backupRoot st e st' hpe p
        intro rel c he
        subst he
        exact hp rel (by simp [filePathsOf])
      rw [← h1]
      exact ih st' st1 h p (fun rel hrel => hp rel (filePaths_sub e rest rel hrel))

theorem backupList_records (srcRoot backupRoot : Path) :
    ∀ (es : List WalkEntry) (st st1 : BState),
      backupList srcRoot backupRoot st es = .ok st1 →
      (filePathsOf es).Nodup →
      ∀ rel c, WalkEntry.file rel c ∈ es →
        ∃ cc, c = some cc ∧
          findKey st1.meta (srcRoot ++ rel) =
            some (mkRecord srcRoot backupRoot rel cc) := by
  intro es
  induction es with
  | nil =>
    intro st st1 _ _ rel c hmem
    simp at hmem
  | cons e rest ih =>
    intro st st1 h hnd rel c hmem
    rw [backupList_cons] at h
    cases hpe : processEntry srcRoot backupRoot st e with
    | error err =>
      rw [hpe] at h
      simp at h
    | ok st' =>
      rw [hpe] at h
      rcases List.mem_cons.mp hmem with he | hrest
      · subst he
        obtain ⟨cc, rfl⟩ := processEntry_file_ok_readable _ _ _ _ _ _ hpe
        refine ⟨cc, rfl, ?_⟩
        simp only [filePathsOf, List.nodup_cons] at hnd
        have hfr : findKey st1.meta (srcRoot ++ rel) = findKey st'.meta (srcRoot ++ rel) := by
          apply backupList_frame srcRoot backupRoot rest st' st1 h
          intro rel' hrel' heq
          have hrr : rel' = rel := List.append_cancel_left heq
          subst hrr
          exact hnd.1 hrel'
        rw [hfr, processEntry_file_some_ok _ _ _ _ _ _ hpe]
        exact findKey_insertKey_eq _ _ _
      · refine ih st' st1 h ?_ rel c hrest
        cases e with
        | dir d => simpa [filePathsOf] using hnd
        | file relh ch =>
          simp only [filePathsOf, List.nodup_cons] at hnd
          exact hnd.2

theorem should_copy_matching (srcRoot backupRoot : Path) (rel : Path) (cc : Content) :
    should_copy (some (mkRecord srcRoot backupRoot rel cc)) (some (hashHex cc)) = false := by
  simp [should_copy, mkRecord, hashHex_ne_empty cc]

theorem backupList_clean (srcRoot backupRoot : Path) :
    ∀ (es : List WalkEntry) (st : BState),
      (∀ rel c, WalkEntry.file rel c ∈ es →
        ∃ cc, c = some cc ∧
          findKey st.meta (srcRoot ++ rel) =
            some (mkRecord srcRoot backupRoot rel cc)) →
      backupList srcRoot backupRoot st es = .ok st := by
  intro es
  induction es with
  | nil =>
    intro st _
    rfl
  | cons e rest ih =>
    intro st hall
    cases e with
    | dir d =>
      rw [backupList_cons, processEntry_dir]
      exact ih st (fun rel c hm => hall rel c (List.mem_cons_of_mem _ hm))
    | file rel c =>
      obtain ⟨cc, rfl, hfind⟩ := hall rel c (List.mem_cons_self _ _)
      have hpe : processEntry srcRoot backupRoot st (.file rel (some cc)) = .ok st := by
        rw [processEntry]
        simp only [Option.map_some']
        rw [hfind]
        simp only [should_copy_matching, Bool.false_eq_true, if_false]
        rw [insertKey_self _ _ _ hfind]
      rw [backupList_cons, hpe]
      exact ih st (fun rel' c' hm => hall rel' c' (List.mem_cons_of_mem _ hm))

/-- Claim C3: if an initial sync `backup(source_root)` succeeds and the
walk visits each file path once, running it again immediately, with no
source change, copies zero files and leaves the persisted index exactly
as the first run produced it. -/
theorem backup_idempotent (srcRoot backupRoot : Path) (entries : List WalkEntry)
    (meta0 : List (Path × FileInfo)) (st1 : BState)
    (h1 : backup srcRoot backupRoot entries meta0 = .ok st1)
    (hnd : (filePathsOf entries).Nodup) :
    backup srcRoot backupRoot entries st1.meta = .ok ⟨st1.meta, []⟩ := by
  have hrec := backupList_records srcRoot backupRoot entries ⟨meta0, []⟩ st1 h1 hnd
  exact backupList_clean srcRoot backupRoot entries ⟨st1.meta, []⟩ hrec

theorem backup_idempotent_witness :
    backup ["s"] ["B"]
      [WalkEntry.dir [], WalkEntry.file ["a.txt"] (some [1]),
       WalkEntry.file ["n", "b.txt"] (some [2])]
      [(["s", "a.txt"], ⟨["s", "a.txt"], ["B", "a.txt"], "txt", "h1"⟩),
       (["s", "n", "b.txt"], ⟨["s", "n", "b.txt"], ["B", "n", "b.txt"], "txt", "h2"⟩)] =
      .ok ⟨[(["s", "a.txt"], ⟨["s", "a.txt"], ["B", "a.txt"], "txt", "h1"⟩),
            (["s", "n", "b.txt"], ⟨["s", "n", "b.txt"], ["B", "n", "b.txt"], "txt", "h2"⟩)],
           []⟩ :=
  backup_idempotent ["s"] ["B"]
    [WalkEntry.dir [], WalkEntry.file ["a.txt"] (some [1]),
     WalkEntry.file ["n", "b.txt"] (some [2])]
    []
    ⟨[(["s", "a.txt"], ⟨["s", "a.txt"], ["B", "a.txt"], "txt", "h1"⟩),
      (["s", "n", "b.txt"], ⟨["s", "n", "b.txt"], ["B", "n", "b.txt"], "txt", "h2"⟩)],
     [["s", "a.txt"], ["s", "n", "b.txt"]]⟩
    (by decide) (by decide)

/-!  Claim C4. -/

theorem foldl_count_eq_copied (fs : SrcFS) :
    ∀ (l : List (Path × FileInfo)) (st : NowState),
      st.count = st.copiedPaths.length →
      (l.foldl (processRecord fs) st).count =
        (l.foldl (processRecord fs) st).copiedPaths.length := by
  intro l
  induction l with
  | nil =>
    intro st h
    exact h
  | cons kv rest ih =>
    intro st h
    rw [List.foldl_cons]
    apply ih
    unfold processRecord
    by_cases h1 : (findKey fs.files kv.2.original_path).isSome = true
    · rw [if_pos h1]
      cases hc : calculate_hash fs kv.2.original_path with
      | none => simpa using h
      | some hh =>
        by_cases hcond : kv.2.hash = "" ∨ hh ≠ kv.2.hash
        · simp [hcond, h]
        · simp [hcond, h]
    · rw [if_neg h1]
      simpa using h

theorem processRecord_unchanged (fs : SrcFS) (st : NowState) (kv : Path × FileInfo)
    (c : Content) (hf : findKey fs.files kv.2.original_path = some (some c))
    (hh : kv.2.hash = hashHex c) :
    processRecord fs st kv = { st with meta := st.meta ++ [kv] } := by
  simp [processRecord, calculate_hash, hf, hh, hashHex_ne_empty c]

theorem foldl_unchanged (fs : SrcFS) :
    ∀ (l : List (Path × FileInfo)) (st : NowState),
      (∀ kv ∈ l, ∃ c, findKey fs.files kv.2.original_path = some (some c) ∧
        kv.2.hash = hashHex c) →
      l.foldl (processRecord fs) st = { st with meta := st.meta ++ l } := by
  intro l
  induction l with
  | nil =>
    intro st _
    simp
  | cons kv rest ih =>
    intro st hall
    obtain ⟨c, hf, hh⟩ := hall kv (List.mem_cons_self _ _)
    rw [List.foldl_cons, processRecord_unchanged fs st kv c hf hh]
    rw [ih _ (fun kv' h' => hall kv' (List.mem_cons_of_mem _ h'))]
    simp

theorem processRecord_changed (fs : SrcFS) (st : NowState) (kv : Path × FileInfo)
    (c : Content) (hf : findKey fs.files kv.2.original_path = some (some c))
    (hne : hashHex c ≠ kv.2.hash) :
    processRecord fs st kv =
      ⟨st.meta ++ [(kv.1, { kv.2 with hash := hashHex c })],
       st.count + 1, st.copiedPaths ++ [kv.2.original_path]⟩ := by
  simp [processRecord, calculate_hash, hf, hne]

/-- Claim C4: `backup_now` returns `Ok(n)` with `n` exactly the number of
files copied during the pass, and saves the persisted document at the end
iff `n ≥ 1`; and when exactly one tracked file's content changed,
`backup_now` copies only that file, updates only its record's hash, and
returns `1`. -/
theorem backup_now_count_and_single_edit :
    (∀ (fs : SrcFS) (meta : List (Path × FileInfo)) (st : NowState) (saved : Bool),
      backup_now true fs meta = .ok (st, saved) →
        st.count = st.copiedPaths.length ∧ (saved = true ↔ 1 ≤ st.count)) ∧
    (∀ (fs : SrcFS) (m1 m2 : List (Path × FileInfo)) (p : Path) (info : FileInfo)
       (c : Content),
      (∀ kv ∈ m1, ∃ c0, findKey fs.files kv.2.original_path = some (some c0) ∧
        kv.2.hash = hashHex c0) →
      (∀ kv ∈ m2, ∃ c0, findKey fs.files kv.2.original_path = some (some c0) ∧
        kv.2.hash = hashHex c0) →
      findKey fs.files info.original_path = some (some c) →
      hashHex c ≠ info.hash →
      backup_now true fs (m1 ++ (p, info) :: m2) =
        .ok (⟨m1 ++ (p, { info with hash := hashHex c }) :: m2,
              1, [info.original_path]⟩, true)) := by
  constructor
  · intro fs meta st saved h
    simp only [backup_now, if_true, Except.ok.injEq, Prod.mk.injEq] at h
    obtain ⟨h1, h2⟩ := h
    constructor
    · rw [← h1]
      exact foldl_count_eq_copied fs meta ⟨[], 0, []⟩ rfl
    · rw [← h2, ← h1]
      simp only [decide_eq_true_eq]
      omega
  · intro fs m1 m2 p info c h1 h2 hf hne
    simp only [backup_now, if_true]
    rw [List.foldl_append, foldl_unchanged fs m1 ⟨[], 0, []⟩ h1]
    simp only [List.nil_append]
    have hfold : List.foldl (processRecord fs) ⟨m1, 0, []⟩ ((p, info) :: m2) =
        ⟨m1 ++ (p, { info with hash := hashHex c }) :: m2, 1, [info.original_path]⟩ := by
      rw [List.foldl_cons, processRecord_changed fs _ (p, info) c hf hne]
      rw [foldl_unchanged fs m2 _ h2]
      simp
    simp only [hfold]
    rfl

theorem backup_now_count_and_single_edit_witness :
    backup_now true ⟨[(["f"], some [3])]⟩ [(["f"], ⟨["f"], ["b", "f"], "t", "h1"⟩)] =
      .ok (⟨[(["f"], ⟨["f"], ["b", "f"], "t", "h3"⟩)], 1, [["f"]]⟩, true) := by
  have h := backup_now_count_and_single_edit.2 ⟨[(["f"], some [3])]⟩ [] [] ["f"]
    ⟨["f"], ["b", "f"], "t", "h1"⟩ [3]
    (by intro kv hkv; simp at hkv) (by intro kv hkv; simp at hkv)
    (by decide) (by decide)
  simpa using h

end FB
